import Mathlib

/-!
Verification development for the SubRequestFinder pipeline (src/main.py).

Embedding conventions:
- Text (Python `str`) is modelled as `List Nat` of Unicode code points (`Txt`).
  `strN` converts a Lean string literal to this representation.
- Byte strings (Python `bytes`) are modelled as `List Nat` of byte values.
- Python `str.lower()` and `re.IGNORECASE` are modelled on the ASCII range
  (`lowerN` maps 65..90 to 97..122 and is the identity elsewhere); the
  class-catalog names, the marker phrase and the regex literals are all ASCII.
- The regex character classes `\w`, `\d`, `\s` and `.` are modelled on the
  ASCII range (`isWordN`, `isDigitN`, `isSpaceN`, "any code point except 10").
- The single regex of the source,
    begins (\w+) .*? at (\d{1,2}:\d{2})\s*(am|pm)? and ends at
    (\d{1,2}:\d{2})\s*(am|pm)?   (re.IGNORECASE)
  is embedded as a bespoke matcher (`searchTimeSlot`) that reproduces
  `re.search`'s leftmost-position, non-greedy-`.*?`, greedy-`\s*`,
  prefer-present-`(am|pm)?` backtracking semantics for this pattern.  The
  trailing `\s*(am|pm)?` of the pattern can always match the empty string and
  binds group 5, which the source never reads, so it is omitted from the
  matcher.
- Python exceptions are modelled by threading the fetch outcome
  (`Except MailboxError _`) and returning the unchanged state paired with
  `some e` when the exception propagates.
- `datetime.now()` values are modelled as `Int` (seconds); `timedelta(hours=24)`
  is `CACHE_INTERVAL = 24*60*60`.
-/

namespace SubReq

/-- Text as a list of Unicode code points (model of Python `str`). -/
abbrev Txt := List Nat

/-- Code points of a Lean string literal. -/
def strN (s : String) : Txt := s.data.map Char.toNat

/-- ASCII lower-casing of one code point (model of `str.lower` /
`re.IGNORECASE`, restricted to ASCII). -/
def lowerN (c : Nat) : Nat := if 65 ≤ c ∧ c ≤ 90 then c + 32 else c

/-- Lower-case a whole text. -/
def lowerT (t : Txt) : Txt := t.map lowerN

/-- Test that `p` is a prefix of `s` (exact, case-sensitive). -/
def isPrefTxt : Txt → Txt → Bool
  | [], _ => true
  | _ :: _, [] => false
  | a :: as, b :: bs => if a = b then isPrefTxt as bs else false

/-- Test that `n` occurs as a contiguous substring of `h`
(model of Python `n in h` on strings; exact, case-sensitive). -/
def hasSub (needle : Txt) : Txt → Bool
  | [] => isPrefTxt needle []
  | c :: cs => isPrefTxt needle (c :: cs) || hasSub needle cs

-- -----------------------------
-- CONFIG constants of src/main.py
-- -----------------------------

/-- The canonical class catalog, verbatim from `VALID_CLASSES` in src/main.py. -/
def VALID_CLASSES : List String :=
  ["Math Level 1",
   "Math Level 2",
   "Math Level 3",
   "Math Level 4",
   "Math Level 5",
   "Prealgebra",
   "Algebra 1",
   "Algebra 2",
   "Geometry",
   "Precalculus",
   "Calculus"]

/-- The weekday catalog, verbatim from `WEEKDAY_ORDER` in src/main.py. -/
def WEEKDAY_ORDER : List String :=
  ["Monday", "Tuesday", "Wednesday", "Thursday", "Friday", "Saturday", "Sunday"]

/-- The genuine-request marker phrase checked (case-sensitively) against the
body at src/main.py line 138. -/
def SUB_MARKER : Txt := strN "A substitute has been requested for"

/-- The constant `CACHE_INTERVAL = timedelta(hours=24)`, in seconds. -/
def CACHE_INTERVAL : Int := 24 * 60 * 60

-- -----------------------------
-- extract_class_from_subject (src/main.py lines 85-95)
-- -----------------------------

/-- Model of `extract_class_from_subject` from src/main.py: `if not subject: return None`;
lower-case the subject; return the first entry of `VALID_CLASSES` whose
lower-cased name is a substring; else `None`. -/
def extract_class_from_subject (subject : Txt) : Option String :=
  if subject = [] then none
  else
    let subj := lowerT subject
    VALID_CLASSES.find? (fun cls => hasSub (lowerT (strN cls)) subj)

-- -----------------------------
-- Body decoding (src/main.py lines 122-135):
-- `payload.decode(charset or "utf-8", errors="ignore")`.
-- Model of the default UTF-8 path of Python's `bytes.decode` with
-- `errors="ignore"`: each maximal invalid subpart is dropped from the
-- output (no replacement character is inserted).  Skipping invalid bytes
-- one at a time yields the same output because a byte that can continue a
-- sequence (0x80-0xBF) can never start one.
-- -----------------------------

/-- Continuation byte 0x80..0xBF. -/
def contB (x : Nat) : Prop := 0x80 ≤ x ∧ x ≤ 0xBF

instance (x : Nat) : Decidable (contB x) := by unfold contB; infer_instance

/-- A valid complete two-byte sequence starts here. -/
def seq2ok (b b2 : Nat) : Prop := 0xC2 ≤ b ∧ b ≤ 0xDF ∧ contB b2

/-- A valid complete three-byte sequence starts here (second-byte range
depends on the lead byte, ruling out overlongs and surrogates). -/
def seq3ok (b b2 b3 : Nat) : Prop :=
  ((b = 0xE0 ∧ 0xA0 ≤ b2 ∧ b2 ≤ 0xBF) ∨
   (0xE1 ≤ b ∧ b ≤ 0xEC ∧ contB b2) ∨
   (b = 0xED ∧ 0x80 ≤ b2 ∧ b2 ≤ 0x9F) ∨
   (0xEE ≤ b ∧ b ≤ 0xEF ∧ contB b2)) ∧ contB b3

/-- A valid complete four-byte sequence starts here. -/
def seq4ok (b b2 b3 b4 : Nat) : Prop :=
  ((b = 0xF0 ∧ 0x90 ≤ b2 ∧ b2 ≤ 0xBF) ∨
   (0xF1 ≤ b ∧ b ≤ 0xF3 ∧ contB b2) ∨
   (b = 0xF4 ∧ 0x80 ≤ b2 ∧ b2 ≤ 0x8F)) ∧ contB b3 ∧ contB b4

instance (b b2 : Nat) : Decidable (seq2ok b b2) := by unfold seq2ok; infer_instance

instance (b b2 b3 : Nat) : Decidable (seq3ok b b2 b3) := by unfold seq3ok; infer_instance

instance (b b2 b3 b4 : Nat) : Decidable (seq4ok b b2 b3 b4) := by
  unfold seq4ok; infer_instance

/-- Code point of a two-byte sequence. -/
def cp2 (b b2 : Nat) : Nat := (b - 0xC0) * 64 + (b2 - 0x80)

/-- Code point of a three-byte sequence. -/
def cp3 (b b2 b3 : Nat) : Nat := (b - 0xE0) * 4096 + (b2 - 0x80) * 64 + (b3 - 0x80)

/-- Code point of a four-byte sequence. -/
def cp4 (b b2 b3 b4 : Nat) : Nat :=
  (b - 0xF0) * 262144 + (b2 - 0x80) * 4096 + (b3 - 0x80) * 64 + (b4 - 0x80)

/-- UTF-8 decoding with `errors="ignore"`: bytes in, code points out;
invalid or incomplete sequences are dropped byte by byte (a continuation
byte can never start a sequence, so skipping a rejected lead byte one
position at a time produces the same output as dropping each maximal
invalid subpart at once, which is what CPython does). -/
def decodeUtf8Ignore : List Nat → List Nat
  | [] => []
  | [b] => if b ≤ 0x7F then [b] else []
  | [b, b2] =>
    if b ≤ 0x7F then b :: decodeUtf8Ignore [b2]
    else if seq2ok b b2 then [cp2 b b2]
    else decodeUtf8Ignore [b2]
  | [b, b2, b3] =>
    if b ≤ 0x7F then b :: decodeUtf8Ignore [b2, b3]
    else if seq2ok b b2 then cp2 b b2 :: decodeUtf8Ignore [b3]
    else if seq3ok b b2 b3 then [cp3 b b2 b3]
    else decodeUtf8Ignore [b2, b3]
  | b :: b2 :: b3 :: b4 :: rest =>
    if b ≤ 0x7F then b :: decodeUtf8Ignore (b2 :: b3 :: b4 :: rest)
    else if seq2ok b b2 then cp2 b b2 :: decodeUtf8Ignore (b3 :: b4 :: rest)
    else if seq3ok b b2 b3 then cp3 b b2 b3 :: decodeUtf8Ignore (b4 :: rest)
    else if seq4ok b b2 b3 b4 then cp4 b b2 b3 b4 :: decodeUtf8Ignore rest
    else decodeUtf8Ignore (b2 :: b3 :: b4 :: rest)

-- -----------------------------
-- The time-slot regex (src/main.py lines 142-147):
--   begins (\w+) .*? at (\d{1,2}:\d{2})\s*(am|pm)? and ends at
--   (\d{1,2}:\d{2})\s*(am|pm)?        with re.IGNORECASE
-- The matcher below reproduces `re.search` for this pattern:
-- leftmost starting position first; `.*?` shortest-first; `\s*` longest-first;
-- `(am|pm)?` tries `am`, then `pm`, then empty; `\d{1,2}` longest-first.
-- -----------------------------

/-- The class `\w` on the ASCII range: letters, digits, underscore. -/
def isWordN (c : Nat) : Bool :=
  decide ((48 ≤ c ∧ c ≤ 57) ∨ (65 ≤ c ∧ c ≤ 90) ∨ (97 ≤ c ∧ c ≤ 122) ∨ c = 95)

/-- The class `\d` on the ASCII range. -/
def isDigitN (c : Nat) : Bool := decide (48 ≤ c ∧ c ≤ 57)

/-- The class `\s` on the ASCII range. -/
def isSpaceN (c : Nat) : Bool :=
  decide (c = 32 ∨ c = 9 ∨ c = 10 ∨ c = 11 ∨ c = 12 ∨ c = 13)

/-- Strip a case-insensitive occurrence of `pat` from the front of `s`
(model of a literal regex token under `re.IGNORECASE`). -/
def stripCI : Txt → Txt → Option Txt
  | [], s => some s
  | _ :: _, [] => none
  | p :: ps, c :: cs => if lowerN c = lowerN p then stripCI ps cs else none

/-- Match `\d{1,2}:\d{2}` at the front of `s`: returns the matched time token and
the rest.  `\d{1,2}` is greedy, but since a digit can never satisfy the
following `:`, the match is deterministic: two digits and `:`, or one digit
and `:`, then exactly two digits. -/
def parseTime : Txt → Option (Txt × Txt)
  | a :: b :: rest =>
    if isDigitN a then
      if isDigitN b then
        match rest with
        | c :: d :: e :: r =>
          if c = 58 ∧ isDigitN d ∧ isDigitN e then some ([a, b, c, d, e], r) else none
        | _ => none
      else if b = 58 then
        match rest with
        | d :: e :: r =>
          if isDigitN d ∧ isDigitN e then some ([a, b, d, e], r) else none
        | _ => none
      else none
    else none
  | _ => none

/-- Match `(pm)?` followed by the literal `lit`: try `pm` then the empty
alternative. -/
def tryPmLit (lit s : Txt) : Option Txt :=
  match stripCI (strN "pm") s with
  | some s1 =>
    match stripCI lit s1 with
    | some r => some r
    | none => stripCI lit s
  | none => stripCI lit s

/-- Match `(am|pm)?` followed by the literal `lit`: alternatives in the engine's
order `am`, `pm`, empty. -/
def tryAmPmLit (lit s : Txt) : Option Txt :=
  match stripCI (strN "am") s with
  | some s1 =>
    match stripCI lit s1 with
    | some r => some r
    | none => tryPmLit lit s
  | none => tryPmLit lit s

/-- Match `\s*(am|pm)?` followed by the literal `lit`: `\s*` is greedy, so longer
space runs are tried first, unwinding one space at a time on failure. -/
def sepMatch (lit : Txt) : Txt → Option Txt
  | [] => tryAmPmLit lit []
  | c :: cs =>
    if isSpaceN c then
      match sepMatch lit cs with
      | some r => some r
      | none => tryAmPmLit lit (c :: cs)
    else tryAmPmLit lit (c :: cs)

/-- The part of the pattern after `.*?`:
` at (\d{1,2}:\d{2})\s*(am|pm)? and ends at (\d{1,2}:\d{2})` —
the trailing `\s*(am|pm)?` always matches the empty string and its group is
never read by the source, so it imposes no constraint.  Returns the two
captured time tokens (groups 2 and 4). -/
def matchR (s : Txt) : Option (Txt × Txt) :=
  match stripCI (strN " at ") s with
  | none => none
  | some s1 =>
    match parseTime s1 with
    | none => none
    | some (t1, s2) =>
      match sepMatch (strN " and ends at ") s2 with
      | none => none
      | some s3 =>
        match parseTime s3 with
        | none => none
        | some (t2, _) => some (t1, t2)

/-- Match `.*?` (non-greedy, `.` excludes the newline 10) followed by `matchR`:
shortest filler first; a newline stops the expansion. -/
def matchAfterDay : Txt → Option (Txt × Txt)
  | [] => matchR []
  | c :: cs =>
    match matchR (c :: cs) with
    | some r => some r
    | none => if c = 10 then none else matchAfterDay cs

/-- The whole pattern anchored at the start of `s`:
`begins (\w+) ` then `matchAfterDay`.  `(\w+)` is greedy and is followed by
a space, which is not a word character, so the day token is exactly the
maximal word-character run.  Returns (day, startTime, endTime) — groups
1, 2 and 4, the am/pm groups 3 and 5 being discarded by the source. -/
def matchBegins (s : Txt) : Option (Txt × Txt × Txt) :=
  match stripCI (strN "begins ") s with
  | none => none
  | some s1 =>
    if s1.takeWhile isWordN = [] then none
    else
      match s1.dropWhile isWordN with
      | c :: s3 =>
        if c = 32 then
          match matchAfterDay s3 with
          | none => none
          | some (t1, t2) => some (s1.takeWhile isWordN, t1, t2)
        else none
      | [] => none

/-- Model of `re.search` for the pattern: leftmost starting position. -/
def searchTimeSlot : Txt → Option (Txt × Txt × Txt)
  | [] => matchBegins []
  | c :: cs =>
    match matchBegins (c :: cs) with
    | some r => some r
    | none => searchTimeSlot cs

-- -----------------------------
-- The per-message loop of fetch_last_200_sub_requests
-- (src/main.py lines 115-163)
-- -----------------------------

/-- One retrieved mail item: `subject` is `msg["subject"]` (`none` models a
missing header, mapped to `""` by `or ""`); `parts` are the raw byte
payloads of the plain-text body parts (one element for a non-multipart
message; for a multipart message the decoded parts are concatenated, and
non-text parts, excluded by the content-type test, are simply not listed). -/
structure RawMsg where
  subject : Option Txt
  parts : List (List Nat)
deriving DecidableEq

/-- The subject line `msg["subject"] or ""`. -/
def subjOf (m : RawMsg) : Txt := m.subject.getD []

/-- The decoded body: each part decoded with `errors="ignore"` and
concatenated with `+=`. -/
def bodyOf (m : RawMsg) : Txt := (m.parts.map decodeUtf8Ignore).flatten

/-- The composite key `f"{day} {start_time} - {end_time}"` appended to
`time_slots` at src/main.py line 154. -/
def slotKey (day t1 t2 : Txt) : Txt := day ++ 32 :: (t1 ++ strN " - " ++ t2)

/-- The contribution of one message to the three accumulator lists
`(time_slots, class_names, days_only)` of the fetch loop: nothing unless
the body contains the marker phrase; otherwise the slot key and the day
when the regex matches, and the class name when the subject yields one. -/
def msgContrib (m : RawMsg) : List Txt × List String × List Txt :=
  let body := bodyOf m
  if hasSub SUB_MARKER body then
    let ts := searchTimeSlot body
    let cls := extract_class_from_subject (subjOf m)
    ((ts.map fun x => slotKey x.1 x.2.1 x.2.2).toList,
     cls.toList,
     (ts.map fun x => x.1).toList)
  else ([], [], [])

/-- The fetch loop over the batch, in order; returns
`(time_slots, class_names, days_only)`. -/
def processBatch : List RawMsg → List Txt × List String × List Txt
  | [] => ([], [], [])
  | m :: ms =>
    let c := msgContrib m
    let r := processBatch ms
    (c.1 ++ r.1, c.2.1 ++ r.2.1, c.2.2 ++ r.2.2)

-- -----------------------------
-- Aggregation (refresh_cache, src/main.py lines 169-192).
-- `collections.Counter(xs)` iterates `xs` and `dict(...)` preserves the
-- resulting insertion order, so the counter is modelled as an association
-- list whose keys appear in order of first occurrence.
-- -----------------------------

/-- Add one occurrence of `x` to the counter: increment its entry if
present, else append `(x, 1)` at the end (Python dict insertion order). -/
def bump {κ : Type} [DecidableEq κ] : List (κ × Nat) → κ → List (κ × Nat)
  | [], x => [(x, 1)]
  | (k, n) :: t, x => if x = k then (k, n + 1) :: t else (k, n) :: bump t x

/-- Model of `dict(Counter(xs))`. -/
def counterL {κ : Type} [DecidableEq κ] (xs : List κ) : List (κ × Nat) :=
  xs.foldl bump []

/-- Model of `d.get(x, 0)` on an association list. -/
def cGet {κ : Type} [DecidableEq κ] : List (κ × Nat) → κ → Nat
  | [], _ => 0
  | (k, n) :: t, x => if x = k then n else cGet t x

/-- Number of occurrences of `x` in `xs`. -/
def countK {κ : Type} [DecidableEq κ] (x : κ) : List κ → Nat
  | [] => 0
  | y :: t => (if y = x then 1 else 0) + countK x t

/-- The ordered class distribution of refresh_cache (lines 178-182):
`for cls in VALID_CLASSES: ordered_counts[cls] = counts.get(cls, 0)`. -/
def classDist (classes : List String) : List (String × Nat) :=
  VALID_CLASSES.map fun cls => (cls, cGet (counterL classes) cls)

/-- The ordered day-only distribution of refresh_cache (lines 185-190):
`for day in WEEKDAY_ORDER: ordered_days[day] = day_counts.get(day, 0)`.
The observed day tokens are texts; the catalog keys are the canonical
weekday strings, compared by exact string equality. -/
def dayDist (days : List Txt) : List (String × Nat) :=
  WEEKDAY_ORDER.map fun day => (day, cGet (counterL days) (strN day))

/-- Sum of the counts of a distribution. -/
def sumCounts {κ : Type} (d : List (κ × Nat)) : Nat := (d.map fun p => p.2).sum

-- -----------------------------
-- Cache gate (src/main.py lines 76-79 and 169-200)
-- -----------------------------

/-- An error raised by the mailbox client (connection/auth/search failure). -/
abbrev MailboxError := Nat

/-- The four module-level cache globals `_cached_time_slots`,
`_cached_class_counts`, `_cached_days`, `_cached_time`, all `None` at
process start. -/
structure CacheState where
  cached_time_slots : Option (List (Txt × Nat))
  cached_class_counts : Option (List (String × Nat))
  cached_days : Option (List (String × Nat))
  cached_time : Option Int
deriving DecidableEq

/-- The initial state of the module globals. -/
def initCache : CacheState :=
  { cached_time_slots := none, cached_class_counts := none,
    cached_days := none, cached_time := none }

/-- The staleness test of ensure_cache (line 199):
`_cached_time is None or now - _cached_time > CACHE_INTERVAL`. -/
def is_stale (now : Int) (st : CacheState) : Bool :=
  match st.cached_time with
  | none => true
  | some t => decide (now - t > CACHE_INTERVAL)

/-- Model of `refresh_cache` (lines 169-192).  `fetched` is the outcome of this
call's `fetch_last_200_sub_requests()`: an exception, or the retrieved
batch.  The four global assignments all come after the fetch call, so on
an exception the state is returned unchanged and the error is reported
(`some e`); on success the three distributions and the timestamp are
replaced and `none` is reported. -/
def refresh_cache (fetched : Except MailboxError (List RawMsg)) (now : Int)
    (st : CacheState) : CacheState × Option MailboxError :=
  match fetched with
  | .error e => (st, some e)
  | .ok msgs =>
    let r := processBatch msgs
    ({ cached_time_slots := some (counterL r.1),
       cached_class_counts := some (classDist r.2.1),
       cached_days := some (dayDist r.2.2),
       cached_time := some now }, none)

/-- Model of `ensure_cache` (lines 195-200): refresh when stale, otherwise leave the
state untouched (and the fetch outcome is never consulted). -/
def ensure_cache (fetched : Except MailboxError (List RawMsg)) (now : Int)
    (st : CacheState) : CacheState × Option MailboxError :=
  if is_stale now st then refresh_cache fetched now st else (st, none)

-- -----------------------------
-- Interleaving model for concurrent callers of ensure_cache.
-- ensure_cache is two observable steps: the staleness check (a read of
-- `_cached_time`) and, when stale was observed, refresh_cache (the mailbox
-- fetch plus the global writes).  Under FastAPI's threaded execution of
-- sync endpoints nothing orders these steps across callers, so a second
-- caller can run its check before the first caller's write.
-- -----------------------------

/-- Program counter of one caller inside ensure_cache. -/
inductive CallerPC
  | atCheck
  | staleSeen
  | freshSeen
  | finished
deriving DecidableEq

/-- Two callers sharing the module globals; `fetchCalls` counts mailbox
round-trips (invocations of fetch_last_200_sub_requests). -/
structure Sys where
  cache : CacheState
  pcA : CallerPC
  pcB : CallerPC
  fetchCalls : Nat
deriving DecidableEq

/-- Thread identifiers. -/
inductive Tid
  | A
  | B
deriving DecidableEq

/-- One atomic step of caller `t` at time `now`; a successful fetch
returns the batch `msgs`. -/
def stepCaller (now : Int) (msgs : List RawMsg) (s : Sys) (t : Tid) : Sys :=
  let pc := match t with | .A => s.pcA | .B => s.pcB
  let setPc := fun (s' : Sys) (p : CallerPC) =>
    match t with
    | .A => { s' with pcA := p }
    | .B => { s' with pcB := p }
  match pc with
  | .atCheck => setPc s (if is_stale now s.cache then .staleSeen else .freshSeen)
  | .staleSeen =>
    let r := refresh_cache (.ok msgs) now s.cache
    setPc { s with cache := r.1, fetchCalls := s.fetchCalls + 1 } .finished
  | .freshSeen => setPc s .finished
  | .finished => s

/-- Run a schedule (list of thread ids, each entry one atomic step). -/
def runSched (now : Int) (msgs : List RawMsg) (sched : List Tid) (s : Sys) : Sys :=
  sched.foldl (stepCaller now msgs) s

/-- Both callers start at the staleness check over the empty cache. -/
def initSys : Sys :=
  { cache := initCache, pcA := .atCheck, pcB := .atCheck, fetchCalls := 0 }

-- -----------------------------
-- Concrete example inputs (ASCII bodies, so the byte values coincide with
-- the code points).
-- -----------------------------

/-- A genuine request with a canonically-capitalized day token. -/
def exMsgA : RawMsg :=
  { subject := some (strN "Algebra 1 Class"),
    parts := [strN "A substitute has been requested for your class. The class begins Monday morning at 9:00 am and ends at 10:30 am."] }

/-- A message without the marker phrase, though its subject names a catalog
class and its body matches the time-slot pattern. -/
def exMsgNoMarker : RawMsg :=
  { subject := some (strN "Algebra 1 Class"),
    parts := [strN "Reminder: your class begins Monday morning at 9:00 am and ends at 10:30 am."] }

/-- A genuine request whose day token has non-canonical casing. -/
def exMsgLower : RawMsg :=
  { subject := some (strN "Geometry"),
    parts := [strN "A substitute has been requested for a class that begins monday morning at 9:00 am and ends at 10:30 am."] }

/-- A successful fetch of an empty batch. -/
def exFetch : Except MailboxError (List RawMsg) := Except.ok []

/-- A cache state refreshed at time 0. -/
def exState : CacheState :=
  { cached_time_slots := some [], cached_class_counts := some (classDist []),
    cached_days := some (dayDist []), cached_time := some 0 }

/-- Example class-name observations. -/
def exClasses : List String := ["Algebra 1", "Algebra 1", "Geometry"]

/-- Example day-token observations. -/
def exDays : List Txt := [strN "Monday", strN "monday"]

/-- Example time-slot keys. -/
def exSlots : List Txt := [strN "Monday 9:00 - 10:30", strN "Tuesday 1:00 - 2:00",
  strN "Monday 9:00 - 10:30"]

-- -----------------------------
-- Declarative characterizations (the spec side of the claims).
-- -----------------------------

/-- The text `n` occurs as a contiguous substring of `h` (declarative, exact). -/
def occursSub (n h : Txt) : Prop := ∃ pre post, h = pre ++ n ++ post

/-- The catalog name `cls` occurs case-insensitively in `subject`. -/
def occursCI (cls : String) (subject : Txt) : Prop :=
  ∃ pre post, lowerT subject = pre ++ lowerT (strN cls) ++ post

/-- The text `u` matches the literal `pat` under `re.IGNORECASE`. -/
def ciTxt (u pat : Txt) : Prop := lowerT u = lowerT pat

/-- All code points satisfy `\s`. -/
def spacesTok (w : Txt) : Prop := ∀ c ∈ w, isSpaceN c = true

/-- A token matching `\d{1,2}:\d{2}`: `H:MM` or `HH:MM`. -/
def timeTok (t : Txt) : Prop :=
  (∃ a b d e, t = [a, b, 58, d, e] ∧ isDigitN a = true ∧ isDigitN b = true ∧
     isDigitN d = true ∧ isDigitN e = true) ∨
  (∃ a d e, t = [a, 58, d, e] ∧ isDigitN a = true ∧ isDigitN d = true ∧
     isDigitN e = true)

/-- A token matching `(am|pm)?`. -/
def ampmTok (p : Txt) : Prop :=
  p = [] ∨ ciTxt p (strN "am") ∨ ciTxt p (strN "pm")

/-- An occurrence of the whole pattern starting exactly at the head of `s`,
with filler `f` between the day token and the ` at ` literal:
`begins ` · day (`\w+`, maximal because a space follows) · a space ·
`f` (`.*?`, no newline) · ` at ` · t1 (`\d{1,2}:\d{2}`) · spaces (`\s*`) ·
am/pm (`(am|pm)?`) · ` and ends at ` · t2 (`\d{1,2}:\d{2}`) · anything
(the trailing `\s*(am|pm)?` matches the empty prefix of `rest`). -/
def occAtF (s day f t1 t2 : Txt) : Prop :=
  ∃ b1 a1 w1 p1 a2 rest,
    s = b1 ++ (day ++ 32 :: (f ++ (a1 ++ (t1 ++ (w1 ++ (p1 ++ (a2 ++ (t2 ++ rest)))))))) ∧
    ciTxt b1 (strN "begins ") ∧
    day ≠ [] ∧ (∀ c ∈ day, isWordN c = true) ∧
    (∀ c ∈ f, c ≠ 10) ∧
    ciTxt a1 (strN " at ") ∧ timeTok t1 ∧
    spacesTok w1 ∧ ampmTok p1 ∧
    ciTxt a2 (strN " and ends at ") ∧ timeTok t2

/-- An occurrence of the pattern starting exactly at the head of `s`. -/
def occAt (s day t1 t2 : Txt) : Prop := ∃ f, occAtF s day f t1 t2

end SubReq

namespace SubReq

-- -----------------------------
-- Substring lemmas
-- -----------------------------

theorem isPrefTxt_iff (n s : Txt) : isPrefTxt n s = true ↔ ∃ r, s = n ++ r := by
  induction n generalizing s with
  | nil => simp [isPrefTxt]
  | cons a as ih =>
    cases s with
    | nil => simp [isPrefTxt]
    | cons b bs =>
      by_cases h : a = b
      · subst h
        simp [isPrefTxt, ih]
      · have h' : ¬ b = a := fun hh => h hh.symm
        simp [isPrefTxt, h, h']

theorem hasSub_iff (n h : Txt) : hasSub n h = true ↔ occursSub n h := by
  induction h with
  | nil =>
    simp only [hasSub, occursSub, isPrefTxt_iff]
    constructor
    · rintro ⟨r, hr⟩
      have hn : n = [] := by
        cases n with
        | nil => rfl
        | cons x xs => simp at hr
      exact ⟨[], [], by simp [hn]⟩
    · rintro ⟨pre, post, hpp⟩
      have hn : n = [] := by
        cases n with
        | nil => rfl
        | cons x xs => simp at hpp
      exact ⟨[], by simp [hn]⟩
  | cons c cs ih =>
    simp only [hasSub, Bool.or_eq_true, isPrefTxt_iff, ih, occursSub]
    constructor
    · rintro (⟨r, hr⟩ | ⟨pre, post, hpp⟩)
      · exact ⟨[], r, by simpa using hr⟩
      · exact ⟨c :: pre, post, by simp [hpp]⟩
    · rintro ⟨pre, post, hpp⟩
      cases pre with
      | nil => exact Or.inl ⟨post, by simpa using hpp⟩
      | cons p ps =>
        right
        have hc : c = p ∧ cs = ps ++ n ++ post := by simpa using hpp
        exact ⟨ps, post, by simp [hc.2]⟩

-- -----------------------------
-- Counter lemmas
-- -----------------------------

theorem cGet_bump {κ : Type} [DecidableEq κ] (acc : List (κ × Nat)) (y x : κ) :
    cGet (bump acc y) x = cGet acc x + (if x = y then 1 else 0) := by
  induction acc with
  | nil =>
    by_cases h : x = y <;> simp [bump, cGet, h]
  | cons kn t ih =>
    obtain ⟨k, n⟩ := kn
    by_cases hyk : y = k
    · subst hyk
      by_cases hxy : x = y <;> simp [bump, cGet, hxy]
    · by_cases hxk : x = k
      · subst hxk
        have hxy : ¬ x = y := fun h => hyk h.symm
        simp [bump, cGet, if_neg hyk, hxy]
      · simp [bump, cGet, if_neg hyk, if_neg hxk, ih]

theorem cGet_foldl {κ : Type} [DecidableEq κ] (xs : List κ) (acc : List (κ × Nat))
    (x : κ) : cGet (xs.foldl bump acc) x = cGet acc x + countK x xs := by
  induction xs generalizing acc with
  | nil => simp [countK]
  | cons y ys ih =>
    simp only [List.foldl_cons, ih, cGet_bump, countK]
    rcases eq_or_ne x y with h | h
    · subst h
      simp only [if_pos rfl]
      omega
    · rw [if_neg h, if_neg (Ne.symm h)]
      omega

theorem cGet_counterL {κ : Type} [DecidableEq κ] (xs : List κ) (x : κ) :
    cGet (counterL xs) x = countK x xs := by
  simpa [counterL, cGet] using cGet_foldl xs [] x

theorem keys_bump_mem {κ : Type} [DecidableEq κ] (acc : List (κ × Nat)) (y k : κ) :
    k ∈ (bump acc y).map Prod.fst ↔ k ∈ acc.map Prod.fst ∨ k = y := by
  induction acc with
  | nil => simp [bump]
  | cons kn t ih =>
    obtain ⟨k', n⟩ := kn
    by_cases h : y = k'
    · subst h
      by_cases hk : k = y <;> simp [bump, hk]
    · simp only [bump, if_neg h, List.map_cons, List.mem_cons, ih]
      tauto

theorem keys_bump_nodup {κ : Type} [DecidableEq κ] (acc : List (κ × Nat)) (y : κ)
    (h : (acc.map Prod.fst).Nodup) : ((bump acc y).map Prod.fst).Nodup := by
  induction acc with
  | nil => simp [bump]
  | cons kn t ih =>
    obtain ⟨k', n⟩ := kn
    simp only [List.map_cons, List.nodup_cons] at h
    by_cases hy : y = k'
    · subst hy
      simpa [bump, List.nodup_cons] using h
    · simp only [bump, if_neg hy, List.map_cons, List.nodup_cons, keys_bump_mem]
      refine ⟨?_, ih h.2⟩
      rintro (hk | hk)
      · exact h.1 hk
      · exact hy hk.symm

theorem keys_foldl_mem {κ : Type} [DecidableEq κ] (xs : List κ) (acc : List (κ × Nat))
    (k : κ) : k ∈ (xs.foldl bump acc).map Prod.fst ↔ k ∈ acc.map Prod.fst ∨ k ∈ xs := by
  induction xs generalizing acc with
  | nil => simp
  | cons y ys ih =>
    simp only [List.foldl_cons, ih, keys_bump_mem, List.mem_cons]
    tauto

theorem keys_counterL_mem {κ : Type} [DecidableEq κ] (xs : List κ) (k : κ) :
    k ∈ (counterL xs).map Prod.fst ↔ k ∈ xs := by
  simpa [counterL] using keys_foldl_mem xs [] k

theorem keys_foldl_nodup {κ : Type} [DecidableEq κ] (xs : List κ)
    (acc : List (κ × Nat)) (h : (acc.map Prod.fst).Nodup) :
    ((xs.foldl bump acc).map Prod.fst).Nodup := by
  induction xs generalizing acc with
  | nil => simpa
  | cons y ys ih =>
    exact ih (bump acc y) (keys_bump_nodup acc y h)

theorem keys_counterL_nodup {κ : Type} [DecidableEq κ] (xs : List κ) :
    ((counterL xs).map Prod.fst).Nodup := by
  simpa [counterL] using keys_foldl_nodup xs [] (by simp)

theorem cGet_of_mem_nodup {κ : Type} [DecidableEq κ] {l : List (κ × Nat)} {k : κ}
    {n : Nat} (hn : (l.map Prod.fst).Nodup) (hm : (k, n) ∈ l) : cGet l k = n := by
  induction l with
  | nil => cases hm
  | cons kn t ih =>
    obtain ⟨k', n'⟩ := kn
    simp only [List.map_cons, List.nodup_cons] at hn
    rcases List.mem_cons.mp hm with heq | hmem
    · cases heq
      simp [cGet]
    · have hk : ¬ k = k' := by
        intro h
        subst h
        exact hn.1 (by exact List.mem_map.mpr ⟨(k, n), hmem, rfl⟩)
      simp [cGet, if_neg hk, ih hn.2 hmem]

theorem mem_counterL_count {κ : Type} [DecidableEq κ] (xs : List κ) (k : κ) (n : Nat)
    (hm : (k, n) ∈ counterL xs) : n = countK k xs := by
  have := cGet_of_mem_nodup (keys_counterL_nodup xs) hm
  rw [← this, cGet_counterL]

theorem countK_pos_of_mem {κ : Type} [DecidableEq κ] {xs : List κ} {k : κ}
    (h : k ∈ xs) : 0 < countK k xs := by
  induction xs with
  | nil => cases h
  | cons y ys ih =>
    rcases List.mem_cons.mp h with rfl | hmem
    · simp [countK]
    · have := ih hmem
      simp only [countK]
      omega

theorem fst_mem_of_mem {κ : Type} {l : List (κ × Nat)} {k : κ} {n : Nat}
    (h : (k, n) ∈ l) : k ∈ l.map Prod.fst :=
  List.mem_map.mpr ⟨(k, n), h, rfl⟩

-- -----------------------------
-- Character-level lemmas
-- -----------------------------

theorem lowerN_cases {c t : Nat} (h : lowerN c = t) :
    c = t ∨ (97 ≤ t ∧ t ≤ 122 ∧ c = t - 32) := by
  unfold lowerN at h
  split at h <;> omega

theorem lowerT_append (a b : Txt) : lowerT (a ++ b) = lowerT a ++ lowerT b :=
  List.map_append lowerN a b

theorem ciTxt_length {u pat : Txt} (h : ciTxt u pat) : u.length = pat.length := by
  have := congrArg List.length h
  simpa [lowerT] using this

-- -----------------------------
-- stripCI: case-insensitive literal tokens
-- -----------------------------

theorem stripCI_sound {pat s r : Txt} (h : stripCI pat s = some r) :
    ∃ u, s = u ++ r ∧ ciTxt u pat := by
  induction pat generalizing s with
  | nil =>
    simp only [stripCI, Option.some.injEq] at h
    exact ⟨[], by simp [h], by simp [ciTxt, lowerT]⟩
  | cons p ps ih =>
    cases s with
    | nil => cases h
    | cons c cs =>
      simp only [stripCI] at h
      split at h
      · obtain ⟨u, hu, hci⟩ := ih h
        refine ⟨c :: u, by simp [hu], ?_⟩
        simp only [ciTxt, lowerT, List.map_cons] at hci ⊢
        simp [hci]
        assumption
      · cases h

theorem stripCI_det {pat u : Txt} (r : Txt) (h : ciTxt u pat) :
    stripCI pat (u ++ r) = some r := by
  induction pat generalizing u with
  | nil =>
    have : u = [] := by
      have := ciTxt_length h
      simpa using List.length_eq_zero.mp (by simpa using this)
    simp [this, stripCI]
  | cons p ps ih =>
    cases u with
    | nil =>
      have := ciTxt_length h
      simp at this
    | cons c cs =>
      simp only [ciTxt, lowerT, List.map_cons, List.cons.injEq] at h
      simp only [List.cons_append, stripCI, if_pos h.1]
      exact ih (by simpa [ciTxt, lowerT] using h.2)

-- -----------------------------
-- parseTime: the token \d{1,2}:\d{2}
-- -----------------------------

theorem parseTime_sound {s t r : Txt} (h : parseTime s = some (t, r)) :
    s = t ++ r ∧ timeTok t := by
  cases s with
  | nil => simp [parseTime] at h
  | cons a s1 =>
    cases s1 with
    | nil => simp [parseTime] at h
    | cons b rest =>
      simp only [parseTime] at h
      by_cases ha : isDigitN a = true
      · rw [if_pos ha] at h
        by_cases hb : isDigitN b = true
        · rw [if_pos hb] at h
          rcases rest with _ | ⟨c, _ | ⟨d, _ | ⟨e, r'⟩⟩⟩
          · cases h
          · cases h
          · cases h
          · dsimp only at h
            by_cases hcde : c = 58 ∧ isDigitN d = true ∧ isDigitN e = true
            · rw [if_pos hcde] at h
              obtain ⟨hc, hd, he⟩ := hcde
              subst hc
              cases h
              exact ⟨by simp, Or.inl ⟨a, b, d, e, rfl, ha, hb, hd, he⟩⟩
            · rw [if_neg hcde] at h
              cases h
        · rw [if_neg hb] at h
          by_cases hb58 : b = 58
          · rw [if_pos hb58] at h
            subst hb58
            rcases rest with _ | ⟨d, _ | ⟨e, r'⟩⟩
            · cases h
            · cases h
            · dsimp only at h
              by_cases hde : isDigitN d = true ∧ isDigitN e = true
              · rw [if_pos hde] at h
                cases h
                exact ⟨by simp, Or.inr ⟨a, d, e, rfl, ha, hde.1, hde.2⟩⟩
              · rw [if_neg hde] at h
                cases h
          · rw [if_neg hb58] at h
            cases h
      · rw [if_neg ha] at h
        cases h

theorem parseTime_det {t : Txt} (r : Txt) (h : timeTok t) :
    parseTime (t ++ r) = some (t, r) := by
  rcases h with ⟨a, b, d, e, rfl, ha, hb, hd, he⟩ | ⟨a, d, e, rfl, ha, hd, he⟩
  · simp [parseTime, ha, hb, hd, he]
  · simp [parseTime, ha, hd, he, (by decide : isDigitN 58 = false)]

-- -----------------------------
-- Literal constants of the pattern, as code-point lists
-- -----------------------------

theorem strN_am : strN "am" = [97, 109] := by decide

theorem strN_pm : strN "pm" = [112, 109] := by decide

theorem strN_atL : strN " at " = [32, 97, 116, 32] := by decide

theorem strN_beginsL : strN "begins " = [98, 101, 103, 105, 110, 115, 32] := by decide

theorem strN_andEndsL :
    strN " and ends at " = [32, 97, 110, 100, 32, 101, 110, 100, 115, 32, 97, 116, 32] := by
  decide

-- -----------------------------
-- \s*(am|pm)? followed by a literal: soundness and determinism
-- -----------------------------

theorem tryPmLit_sound {lit s r : Txt} (h : tryPmLit lit s = some r) :
    ∃ p u, s = p ++ u ++ r ∧ ampmTok p ∧ ciTxt u lit := by
  unfold tryPmLit at h
  cases hpm : stripCI (strN "pm") s with
  | some s1 =>
    rw [hpm] at h
    dsimp only at h
    cases hl : stripCI lit s1 with
    | some r0 =>
      rw [hl] at h
      cases h
      obtain ⟨p, hp, hcp⟩ := stripCI_sound hpm
      obtain ⟨u, huu, hcu⟩ := stripCI_sound hl
      exact ⟨p, u, by simp [hp, huu], Or.inr (Or.inr hcp), hcu⟩
    | none =>
      rw [hl] at h
      obtain ⟨u, huu, hcu⟩ := stripCI_sound h
      exact ⟨[], u, by simp [huu], Or.inl rfl, hcu⟩
  | none =>
    rw [hpm] at h
    dsimp only at h
    obtain ⟨u, huu, hcu⟩ := stripCI_sound h
    exact ⟨[], u, by simp [huu], Or.inl rfl, hcu⟩

theorem tryAmPmLit_sound {lit s r : Txt} (h : tryAmPmLit lit s = some r) :
    ∃ p u, s = p ++ u ++ r ∧ ampmTok p ∧ ciTxt u lit := by
  unfold tryAmPmLit at h
  cases ham : stripCI (strN "am") s with
  | some s1 =>
    rw [ham] at h
    dsimp only at h
    cases hl : stripCI lit s1 with
    | some r0 =>
      rw [hl] at h
      cases h
      obtain ⟨p, hp, hcp⟩ := stripCI_sound ham
      obtain ⟨u, huu, hcu⟩ := stripCI_sound hl
      exact ⟨p, u, by simp [hp, huu], Or.inr (Or.inl hcp), hcu⟩
    | none =>
      rw [hl] at h
      exact tryPmLit_sound h
  | none =>
    rw [ham] at h
    dsimp only at h
    exact tryPmLit_sound h

theorem sepMatch_sound {lit s r : Txt} (h : sepMatch lit s = some r) :
    ∃ w p u, s = w ++ p ++ u ++ r ∧ spacesTok w ∧ ampmTok p ∧ ciTxt u lit := by
  induction s with
  | nil =>
    simp only [sepMatch] at h
    obtain ⟨p, u, hs, hp, hu⟩ := tryAmPmLit_sound h
    exact ⟨[], p, u, by simp [hs], by simp [spacesTok], hp, hu⟩
  | cons c cs ih =>
    simp only [sepMatch] at h
    split at h
    · rename_i hc
      cases hrec : sepMatch lit cs with
      | some r0 =>
        rw [hrec] at h
        cases h
        obtain ⟨w, p, u, hs, hw, hp, hu⟩ := ih hrec
        refine ⟨c :: w, p, u, by simp [hs], ?_, hp, hu⟩
        intro x hx
        rcases List.mem_cons.mp hx with rfl | hx'
        · exact hc
        · exact hw x hx'
      | none =>
        rw [hrec] at h
        obtain ⟨p, u, hs, hp, hu⟩ := tryAmPmLit_sound h
        exact ⟨[], p, u, by simp [hs], by simp [spacesTok], hp, hu⟩
    · obtain ⟨p, u, hs, hp, hu⟩ := tryAmPmLit_sound h
      exact ⟨[], p, u, by simp [hs], by simp [spacesTok], hp, hu⟩

theorem lowerN_97 {c : Nat} (h : lowerN c = 97) : c = 97 ∨ c = 65 := by
  rcases lowerN_cases h with h' | h'
  · exact Or.inl h'
  · right
    omega

theorem lowerN_112 {c : Nat} (h : lowerN c = 112) : c = 112 ∨ c = 80 := by
  rcases lowerN_cases h with h' | h'
  · exact Or.inl h'
  · right
    omega

theorem lowerN_nonletter {c t : Nat} (h : lowerN c = t) (h1 : ¬ (97 ≤ t ∧ t ≤ 122)) :
    c = t := by
  rcases lowerN_cases h with h' | h'
  · exact h'
  · exact absurd ⟨h'.1, h'.2.1⟩ h1

theorem stripCI_cons_eq {p c : Nat} (ps cs : Txt) (h : lowerN c = lowerN p) :
    stripCI (p :: ps) (c :: cs) = stripCI ps cs := by
  simp [stripCI, h]

theorem stripCI_cons_ne {p c : Nat} (ps cs : Txt) (h : ¬ lowerN c = lowerN p) :
    stripCI (p :: ps) (c :: cs) = none := by
  simp [stripCI, h]

theorem lowT_am : lowerT (strN "am") = [97, 109] := by decide

theorem lowT_pm : lowerT (strN "pm") = [112, 109] := by decide

theorem lowT_andEnds :
    lowerT (strN " and ends at ") =
      [32, 97, 110, 100, 32, 101, 110, 100, 115, 32, 97, 116, 32] := by decide

theorem lowT_at : lowerT (strN " at ") = [32, 97, 116, 32] := by decide

theorem lowT_begins : lowerT (strN "begins ") = [98, 101, 103, 105, 110, 115, 32] := by
  decide

theorem sepMatch_cons_space_some {lit cs r : Txt} {c : Nat} (h : isSpaceN c = true)
    (h2 : sepMatch lit cs = some r) : sepMatch lit (c :: cs) = some r := by
  simp only [sepMatch, h, if_true, h2]

theorem sepMatch_cons_space_none {lit cs : Txt} {c : Nat} (h : isSpaceN c = true)
    (h2 : sepMatch lit cs = none) :
    sepMatch lit (c :: cs) = tryAmPmLit lit (c :: cs) := by
  simp only [sepMatch, h, if_true, h2]

theorem sepMatch_cons_nospace {lit cs : Txt} {c : Nat} (h : isSpaceN c = false) :
    sepMatch lit (c :: cs) = tryAmPmLit lit (c :: cs) := by
  simp only [sepMatch, h, Bool.false_eq_true, if_false]

theorem tryAmPmLit_am_none {lit s : Txt} (h : stripCI (strN "am") s = none) :
    tryAmPmLit lit s = tryPmLit lit s := by
  simp only [tryAmPmLit, h]

theorem tryAmPmLit_am_some {lit s s1 r : Txt} (h : stripCI (strN "am") s = some s1)
    (h2 : stripCI lit s1 = some r) : tryAmPmLit lit s = some r := by
  simp only [tryAmPmLit, h, h2]

theorem tryPmLit_pm_none {lit s : Txt} (h : stripCI (strN "pm") s = none) :
    tryPmLit lit s = stripCI lit s := by
  simp only [tryPmLit, h]

theorem tryPmLit_pm_some {lit s s1 r : Txt} (h : stripCI (strN "pm") s = some s1)
    (h2 : stripCI lit s1 = some r) : tryPmLit lit s = some r := by
  simp only [tryPmLit, h, h2]

/-- The function `sepMatch` of ` and ends at ` fails on any text whose first two code
points lower-case to `a`, `n` — in particular on the tail of any
case-insensitive match of the literal itself.  This is what makes the
greedy `\s*` unwinding deterministic. -/
theorem sepMatch_none_an {c1 c2 : Nat} (s : Txt) (h1 : lowerN c1 = 97)
    (h2 : lowerN c2 = 110) : sepMatch (strN " and ends at ") (c1 :: c2 :: s) = none := by
  have hsp : isSpaceN c1 = false := by
    rcases lowerN_97 h1 with h | h <;> subst h <;> decide
  have ham : stripCI (strN "am") (c1 :: c2 :: s) = none := by
    rw [strN_am, stripCI_cons_eq _ _ (by rw [h1]; decide),
      stripCI_cons_ne _ _ (by rw [h2]; decide)]
  have hpm : stripCI (strN "pm") (c1 :: c2 :: s) = none :=
    strN_pm ▸ stripCI_cons_ne _ _ (by rw [h1]; decide)
  have hlit : stripCI (strN " and ends at ") (c1 :: c2 :: s) = none :=
    strN_andEndsL ▸ stripCI_cons_ne _ _ (by rw [h1]; decide)
  rw [sepMatch_cons_nospace hsp, tryAmPmLit_am_none ham, tryPmLit_pm_none hpm, hlit]

theorem sepMatch_det {w p u : Txt} (r : Txt) (hw : spacesTok w) (hp : ampmTok p)
    (hu : ciTxt u (strN " and ends at ")) :
    sepMatch (strN " and ends at ") (w ++ (p ++ (u ++ r))) = some r := by
  induction w with
  | cons c w' ih =>
    have hc : isSpaceN c = true := hw c (List.mem_cons_self c w')
    have hw' : spacesTok w' := fun x hx => hw x (List.mem_cons_of_mem c hx)
    rw [List.cons_append]
    exact sepMatch_cons_space_some hc (ih hw')
  | nil =>
    have hstrip : stripCI (strN " and ends at ") (u ++ r) = some r := stripCI_det r hu
    simp only [List.nil_append]
    rcases hp with rfl | hpm | hpm
    · -- empty (am|pm)? : the separator step eats the leading space of the
      -- literal, and the recursion on its tail (which lower-cases to
      -- "a","n",...) fails, so the unwinding stops exactly at the literal
      have hu2 := hu
      rw [ciTxt, lowT_andEnds] at hu2
      rcases u with _ | ⟨u0, _ | ⟨u1, _ | ⟨u2, u3⟩⟩⟩
      · simp [lowerT] at hu2
      · simp [lowerT] at hu2
      · simp [lowerT] at hu2
      · simp only [lowerT, List.map_cons, List.cons.injEq] at hu2
        obtain ⟨h0, h1, h2, _⟩ := hu2
        have hu0 : u0 = 32 := lowerN_nonletter h0 (by omega)
        subst hu0
        have hrec : sepMatch (strN " and ends at ") (u1 :: u2 :: (u3 ++ r)) = none :=
          sepMatch_none_an (u3 ++ r) h1 h2
        have ham : stripCI (strN "am") (32 :: u1 :: u2 :: (u3 ++ r)) = none :=
          strN_am ▸ stripCI_cons_ne _ _ (by decide)
        have hpm2 : stripCI (strN "pm") (32 :: u1 :: u2 :: (u3 ++ r)) = none :=
          strN_pm ▸ stripCI_cons_ne _ _ (by decide)
        have hstrip2 : stripCI (strN " and ends at ") (32 :: u1 :: u2 :: (u3 ++ r)) =
            some r := by
          simpa using hstrip
        rw [List.nil_append, List.cons_append, List.cons_append, List.cons_append,
          sepMatch_cons_space_none (by decide) hrec, tryAmPmLit_am_none ham,
          tryPmLit_pm_none hpm2, hstrip2]
    · -- (am|pm)? matched am
      have hpv := hpm
      rw [ciTxt, lowT_am] at hpv
      rcases p with _ | ⟨p0, _ | ⟨p1, p2⟩⟩
      · simp [lowerT] at hpv
      · simp [lowerT] at hpv
      · simp only [lowerT, List.map_cons, List.cons.injEq] at hpv
        obtain ⟨h0, h1, hnil⟩ := hpv
        have hp2 : p2 = [] := by simpa [lowerT] using hnil
        subst hp2
        have hsp : isSpaceN p0 = false := by
          rcases lowerN_97 h0 with h | h <;> subst h <;> decide
        have hamstrip : stripCI (strN "am") (p0 :: p1 :: (u ++ r)) = some (u ++ r) := by
          have hci : ciTxt [p0, p1] (strN "am") := hpm
          simpa using stripCI_det (u ++ r) hci
        rw [List.cons_append, List.cons_append, List.nil_append,
          sepMatch_cons_nospace hsp, tryAmPmLit_am_some hamstrip hstrip]
    · -- (am|pm)? matched pm
      have hpv := hpm
      rw [ciTxt, lowT_pm] at hpv
      rcases p with _ | ⟨p0, _ | ⟨p1, p2⟩⟩
      · simp [lowerT] at hpv
      · simp [lowerT] at hpv
      · simp only [lowerT, List.map_cons, List.cons.injEq] at hpv
        obtain ⟨h0, h1, hnil⟩ := hpv
        have hp2 : p2 = [] := by simpa [lowerT] using hnil
        subst hp2
        have hsp : isSpaceN p0 = false := by
          rcases lowerN_112 h0 with h | h <;> subst h <;> decide
        have hamfail : stripCI (strN "am") (p0 :: p1 :: (u ++ r)) = none :=
          strN_am ▸ stripCI_cons_ne _ _ (by rw [h0]; decide)
        have hpmstrip : stripCI (strN "pm") (p0 :: p1 :: (u ++ r)) = some (u ++ r) := by
          have hci : ciTxt [p0, p1] (strN "pm") := hpm
          simpa using stripCI_det (u ++ r) hci
        rw [List.cons_append, List.cons_append, List.nil_append,
          sepMatch_cons_nospace hsp, tryAmPmLit_am_none hamfail,
          tryPmLit_pm_some hpmstrip hstrip]

-- -----------------------------
-- matchR: the part of the pattern after the non-greedy filler
-- -----------------------------

theorem matchR_sound {s t1 t2 : Txt} (h : matchR s = some (t1, t2)) :
    ∃ a1 w1 p1 a2 rest,
      s = a1 ++ (t1 ++ (w1 ++ (p1 ++ (a2 ++ (t2 ++ rest))))) ∧
      ciTxt a1 (strN " at ") ∧ timeTok t1 ∧ spacesTok w1 ∧ ampmTok p1 ∧
      ciTxt a2 (strN " and ends at ") ∧ timeTok t2 := by
  unfold matchR at h
  cases h1 : stripCI (strN " at ") s with
  | none => rw [h1] at h; cases h
  | some s1 =>
    rw [h1] at h
    dsimp only at h
    cases h2 : parseTime s1 with
    | none => rw [h2] at h; cases h
    | some tp =>
      obtain ⟨t1x, s2⟩ := tp
      rw [h2] at h
      dsimp only at h
      cases h3 : sepMatch (strN " and ends at ") s2 with
      | none => rw [h3] at h; cases h
      | some s3 =>
        rw [h3] at h
        dsimp only at h
        cases h4 : parseTime s3 with
        | none => rw [h4] at h; cases h
        | some tq =>
          obtain ⟨t2x, rest⟩ := tq
          rw [h4] at h
          dsimp only at h
          simp only [Option.some.injEq, Prod.mk.injEq] at h
          obtain ⟨h5, h6⟩ := h
          subst h5
          subst h6
          obtain ⟨a1, hs, hA1⟩ := stripCI_sound h1
          obtain ⟨hs1, ht1⟩ := parseTime_sound h2
          obtain ⟨w1, p1, u, hs2, hw, hp, hu⟩ := sepMatch_sound h3
          obtain ⟨hs3, ht2⟩ := parseTime_sound h4
          refine ⟨a1, w1, p1, u, rest, ?_, hA1, ht1, hw, hp, hu, ht2⟩
          rw [hs, hs1, hs2, hs3]
          simp [List.append_assoc]

theorem matchR_det {a1 t1 w1 p1 a2 t2 : Txt} (rest : Txt)
    (hA1 : ciTxt a1 (strN " at ")) (ht1 : timeTok t1) (hw : spacesTok w1)
    (hp : ampmTok p1) (hA2 : ciTxt a2 (strN " and ends at ")) (ht2 : timeTok t2) :
    matchR (a1 ++ (t1 ++ (w1 ++ (p1 ++ (a2 ++ (t2 ++ rest)))))) = some (t1, t2) := by
  unfold matchR
  rw [stripCI_det _ hA1]
  dsimp only
  rw [parseTime_det _ ht1]
  dsimp only
  rw [sepMatch_det _ hw hp hA2]
  dsimp only
  rw [parseTime_det _ ht2]

-- -----------------------------
-- matchAfterDay: the non-greedy filler
-- -----------------------------

theorem matchAfterDay_sound {s t1 t2 : Txt} (h : matchAfterDay s = some (t1, t2)) :
    ∃ f rest, s = f ++ rest ∧ (∀ c ∈ f, c ≠ 10) ∧ matchR rest = some (t1, t2) ∧
      ∀ k, k < f.length → matchR (s.drop k) = none := by
  induction s with
  | nil =>
    refine ⟨[], [], rfl, by simp, by simpa [matchAfterDay] using h, by simp⟩
  | cons c cs ih =>
    cases hm : matchR (c :: cs) with
    | some r =>
      simp only [matchAfterDay, hm, Option.some.injEq] at h
      exact ⟨[], c :: cs, rfl, by simp, by rw [hm, h], by simp⟩
    | none =>
      simp only [matchAfterDay, hm] at h
      split at h
      · cases h
      · rename_i hc10
        obtain ⟨f, rest, hs, hf, hm2, hmin⟩ := ih h
        refine ⟨c :: f, rest, by simp [hs], ?_, hm2, ?_⟩
        · intro x hx
          rcases List.mem_cons.mp hx with rfl | hx2
          · exact hc10
          · exact hf x hx2
        · intro k hk
          cases k with
          | zero => simpa using hm
          | succ k2 =>
            have := hmin k2 (by simpa using hk)
            simpa [hs] using this

theorem matchAfterDay_complete {s : Txt} (h : matchAfterDay s = none) :
    ∀ f rest, s = f ++ rest → (∀ c ∈ f, c ≠ 10) → matchR rest = none := by
  induction s with
  | nil =>
    intro f rest hs hf
    have hfe : f = [] ∧ rest = [] := by
      constructor
      · cases f with
        | nil => rfl
        | cons a b => simp at hs
      · cases f with
        | nil => simpa using hs.symm
        | cons a b => simp at hs
    rw [hfe.2]
    simpa [matchAfterDay] using h
  | cons c cs ih =>
    intro f rest hs hf
    cases hm : matchR (c :: cs) with
    | some r => simp [matchAfterDay, hm] at h
    | none =>
      simp only [matchAfterDay, hm] at h
      cases f with
      | nil =>
        rw [show rest = c :: cs from by simpa using hs.symm]
        exact hm
      | cons c0 f2 =>
        have hc0p : c0 = c ∧ f2 ++ rest = cs := by simpa using hs.symm
        have hc0 : c0 = c ∧ cs = f2 ++ rest := ⟨hc0p.1, hc0p.2.symm⟩
        have hcne : c ≠ 10 := hc0.1 ▸ hf c0 (List.mem_cons_self c0 f2)
        rw [if_neg hcne] at h
        exact ih h f2 rest hc0.2 fun x hx => hf x (List.mem_cons_of_mem c0 hx)

-- -----------------------------
-- matchBegins: the pattern anchored at one position
-- -----------------------------

theorem takeWhile_day {day : Txt} (tail : Txt) (hw : ∀ c ∈ day, isWordN c = true) :
    (day ++ 32 :: tail).takeWhile isWordN = day ∧
    (day ++ 32 :: tail).dropWhile isWordN = 32 :: tail := by
  have h32 : isWordN 32 = false := by decide
  induction day with
  | nil => simp [List.takeWhile_cons, List.dropWhile_cons, h32]
  | cons d ds ih =>
    have hd : isWordN d = true := hw d (List.mem_cons_self d ds)
    have hw2 : ∀ c ∈ ds, isWordN c = true := fun x hx => hw x (List.mem_cons_of_mem d hx)
    obtain ⟨ht, hd2⟩ := ih hw2
    simp [List.takeWhile_cons, List.dropWhile_cons, hd, ht, hd2]

theorem matchBegins_sound {s d t1 t2 : Txt} (h : matchBegins s = some (d, t1, t2)) :
    ∃ f, occAtF s d f t1 t2 ∧
      ∀ d2 f2 u v, occAtF s d2 f2 u v → d2 = d ∧ f.length ≤ f2.length := by
  unfold matchBegins at h
  cases h1 : stripCI (strN "begins ") s with
  | none => rw [h1] at h; cases h
  | some s1 =>
    rw [h1] at h
    dsimp only at h
    split at h
    · cases h
    · rename_i hd0
      cases h2 : s1.dropWhile isWordN with
      | nil => rw [h2] at h; cases h
      | cons c s3 =>
        rw [h2] at h
        dsimp only at h
        split at h
        · rename_i hc32
          subst hc32
          cases h3 : matchAfterDay s3 with
          | none => rw [h3] at h; cases h
          | some tt =>
            obtain ⟨t1x, t2x⟩ := tt
            rw [h3] at h
            dsimp only at h
            simp only [Option.some.injEq, Prod.mk.injEq] at h
            obtain ⟨hd, ht1, ht2⟩ := h
            subst ht1
            subst ht2
            obtain ⟨b1, hsb, hb1⟩ := stripCI_sound h1
            have hs1 : s1 = d ++ 32 :: s3 := by
              conv_lhs => rw [← List.takeWhile_append_dropWhile isWordN s1]
              rw [hd, h2]
            have hdw : ∀ x ∈ d, isWordN x = true := by
              intro x hx
              exact List.mem_takeWhile_imp (hd ▸ hx)
            obtain ⟨f, rest, hs3, hf, hmR, hmin⟩ := matchAfterDay_sound h3
            obtain ⟨a1, w1, p1, a2, rest2, hrest, hA1, ht1tok, hw1, hp1, hA2, ht2tok⟩ :=
              matchR_sound hmR
            refine ⟨f, ⟨b1, a1, w1, p1, a2, rest2, ?_, hb1, hd ▸ hd0, hdw, hf, hA1,
              ht1tok, hw1, hp1, hA2, ht2tok⟩, ?_⟩
            · rw [hsb, hs1, hs3, hrest]
            · rintro d2 f2 u v
                ⟨b1x, a1x, w1x, p1x, a2x, restx, hsx, hb1x, hd2ne, hd2w, hfx, hA1x,
                  ht1x, hw1x, hp1x, hA2x, ht2x⟩
              have hlen : b1x.length = b1.length := by
                rw [ciTxt_length hb1x, ciTxt_length hb1]
              have hsplit := List.append_inj (hsx.symm.trans (hsb.trans (by rw [hs1])))
                hlen
              have hs1x : d ++ 32 :: s3 =
                  d2 ++ 32 :: (f2 ++ (a1x ++ (u ++ (w1x ++ (p1x ++ (a2x ++
                    (v ++ restx))))))) := hsplit.2.symm
              obtain ⟨htx, hdx⟩ := takeWhile_day (f2 ++ (a1x ++ (u ++ (w1x ++ (p1x ++
                (a2x ++ (v ++ restx))))))) hd2w
              have htd : d2 = d := by
                rw [← hs1x] at htx
                have h1d := (takeWhile_day s3 hdw).1
                rw [h1d] at htx
                exact htx.symm
              have hs3x : s3 = f2 ++ (a1x ++ (u ++ (w1x ++ (p1x ++ (a2x ++
                  (v ++ restx)))))) := by
                rw [← hs1x] at hdx
                have h1d := (takeWhile_day s3 hdw).2
                rw [h1d] at hdx
                exact (List.cons.inj hdx).2
              refine ⟨htd, ?_⟩
              by_contra hlt
              push_neg at hlt
              have hnone := hmin f2.length (by omega)
              rw [hs3x] at hnone
              rw [List.drop_left f2] at hnone
              have hsome := matchR_det restx hA1x ht1x hw1x hp1x hA2x ht2x
              rw [hnone] at hsome
              cases hsome
        · cases h

theorem matchBegins_complete {s : Txt} (h : matchBegins s = none) :
    ∀ d f t1 t2, ¬ occAtF s d f t1 t2 := by
  rintro d f t1 t2
    ⟨b1, a1, w1, p1, a2, rest, hs, hb1, hdne, hdw, hf, hA1, ht1, hw1, hp1, hA2, ht2⟩
  have h1 : stripCI (strN "begins ") s =
      some (d ++ 32 :: (f ++ (a1 ++ (t1 ++ (w1 ++ (p1 ++ (a2 ++ (t2 ++ rest)))))))) := by
    rw [hs]
    exact stripCI_det _ hb1
  obtain ⟨htk, hdp⟩ := takeWhile_day
    (f ++ (a1 ++ (t1 ++ (w1 ++ (p1 ++ (a2 ++ (t2 ++ rest))))))) hdw
  unfold matchBegins at h
  rw [h1] at h
  dsimp only at h
  rw [htk, hdp, if_neg hdne] at h
  dsimp only at h
  rw [if_pos rfl] at h
  cases h3 : matchAfterDay (f ++ (a1 ++ (t1 ++ (w1 ++ (p1 ++ (a2 ++ (t2 ++ rest)))))))
    with
  | some tt =>
    rw [h3] at h
    obtain ⟨x, y⟩ := tt
    dsimp only at h
    cases h
  | none =>
    have := matchAfterDay_complete h3 f
      (a1 ++ (t1 ++ (w1 ++ (p1 ++ (a2 ++ (t2 ++ rest)))))) rfl hf
    rw [matchR_det rest hA1 ht1 hw1 hp1 hA2 ht2] at this
    cases this

-- -----------------------------
-- searchTimeSlot: leftmost search position
-- -----------------------------

theorem search_sound {s d t1 t2 : Txt} (h : searchTimeSlot s = some (d, t1, t2)) :
    ∃ i, matchBegins (s.drop i) = some (d, t1, t2) ∧
      ∀ j, j < i → matchBegins (s.drop j) = none := by
  induction s with
  | nil =>
    exact ⟨0, by simpa [searchTimeSlot] using h, by omega⟩
  | cons c cs ih =>
    cases hm : matchBegins (c :: cs) with
    | some r =>
      simp only [searchTimeSlot, hm, Option.some.injEq] at h
      exact ⟨0, by simpa [hm] using congrArg some h, by omega⟩
    | none =>
      simp only [searchTimeSlot, hm] at h
      obtain ⟨i, hi, hmin⟩ := ih h
      refine ⟨i + 1, by simpa using hi, ?_⟩
      intro j hj
      cases j with
      | zero => simpa using hm
      | succ j2 => simpa using hmin j2 (by omega)

theorem search_complete {s : Txt} (h : searchTimeSlot s = none) :
    ∀ i, matchBegins (s.drop i) = none := by
  induction s with
  | nil =>
    intro i
    rw [List.drop_nil]
    simpa [searchTimeSlot] using h
  | cons c cs ih =>
    intro i
    cases hm : matchBegins (c :: cs) with
    | some r => simp [searchTimeSlot, hm] at h
    | none =>
      simp only [searchTimeSlot, hm] at h
      cases i with
      | zero => simpa using hm
      | succ i2 => simpa using ih h i2

-- -----------------------------
-- find? characterization (first match in catalog order)
-- -----------------------------

theorem find?_first {α : Type} (p : α → Bool) (l : List α) (a : α)
    (h : l.find? p = some a) :
    p a = true ∧ ∃ l1 l2, l = l1 ++ a :: l2 ∧ ∀ x ∈ l1, p x = false := by
  induction l with
  | nil => cases h
  | cons b bs ih =>
    by_cases hb : p b = true
    · rw [List.find?_cons_of_pos _ hb] at h
      cases h
      exact ⟨hb, [], bs, rfl, by simp⟩
    · have hb' : p b = false := by simpa using hb
      rw [List.find?_cons_of_neg _ (by simp [hb'])] at h
      obtain ⟨hpa, l1, l2, heq, hall⟩ := ih h
      refine ⟨hpa, b :: l1, l2, by simp [heq], ?_⟩
      intro x hx
      rcases List.mem_cons.mp hx with rfl | hx'
      · exact hb'
      · exact hall x hx'

example : extract_class_from_subject (strN "Your Algebra 2 Class") = some "Algebra 2" := by decide

example : extract_class_from_subject (strN "nothing here") = none := by decide

example : decodeUtf8Ignore [65, 255, 66] = [65, 66] := by decide

example : decodeUtf8Ignore [0xC3, 0xA9] = [233] := by decide

example :
    searchTimeSlot
      (strN "A substitute has been requested for a class that begins Monday January 5 at 9:00 am and ends at 10:30 am.") =
      some (strN "Monday", strN "9:00", strN "10:30") := by decide

example :
    searchTimeSlot (strN "begins Monday at 9:00 and ends at 10:30") = none := by decide

example :
    searchTimeSlot (strN "Begins monday x AT 9:00AM and ends at 21:30 pm rest") =
      some (strN "monday", strN "9:00", strN "21:30") := by decide

example : searchTimeSlot (strN "begins Monday x at 123:45 and ends at 1:30") = none := by
  decide

example :
    searchTimeSlot (strN "begins Monday  at 9:00 and ends at 10:30") =
      some (strN "Monday", strN "9:00", strN "10:30") := by decide

example : searchTimeSlot (strN "begins Mon\nday x at 9:00 and ends at 10:30") = none := by
  decide

example :
    searchTimeSlot (strN "begins Monday x\nat stuff at 9:00 and ends at 10:30") = none := by
  decide

example : searchTimeSlot (strN "begins Monday x at 9:004 and ends at 10:30") = none := by
  decide

example :
    searchTimeSlot (strN "begins Monday x at 9:00  pm  and ends at 10:30") = none := by
  decide

example :
    searchTimeSlot (strN "begins Monday x at 9:00 pmand ends at 10:30") = none := by decide

example :
    searchTimeSlot (strN "xxbegins 123 __ at 0:00am and ends at 00:00pm") =
      some (strN "123", strN "0:00", strN "00:00") := by decide

example :
    searchTimeSlot (strN "begins Monday x at 9:00 AND ENDS AT 10:30") =
      some (strN "Monday", strN "9:00", strN "10:30") := by decide

example :
    searchTimeSlot
      (strN "begins A b at 1:23 and ends at 4:56 begins B c at 7:89 and ends at 0:12") =
      some (strN "A", strN "1:23", strN "4:56") := by decide

example :
    searchTimeSlot (strN "begins Monday y at at 9:00 and ends at 10:30") =
      some (strN "Monday", strN "9:00", strN "10:30") := by decide

example :
    searchTimeSlot (strN "begins Monday \t at 9:00\tam and ends at 10:30") =
      some (strN "Monday", strN "9:00", strN "10:30") := by decide

example : searchTimeSlot (strN "begins Monday x at 19:00 and ends at 9:3") = none := by
  decide

example : searchTimeSlot (strN "begins  Monday x at 9:00 and ends at 10:30") = none := by
  decide

example :
    searchTimeSlot (strN "zz begins T_9 filler more at 23:59pm and ends at 0:01am tail") =
      some (strN "T_9", strN "23:59", strN "0:01") := by decide

example :
    searchTimeSlot (strN "begins Monday x at 9:00 amand ends at 10:30") = none := by decide

example :
    searchTimeSlot (strN "begins Monday x at 9:00 pm and ends  at 10:30") = none := by
  decide

example :
    (runSched 0 [] [Tid.A, Tid.B, Tid.A, Tid.B] initSys).fetchCalls = 2 := by decide

-- -----------------------------
-- Pipeline helper lemmas
-- -----------------------------

theorem msgContrib_of_no_marker {m : RawMsg}
    (h : hasSub SUB_MARKER (bodyOf m) = false) : msgContrib m = ([], [], []) := by
  simp [msgContrib, h]

theorem processBatch_append (xs ys : List RawMsg) :
    processBatch (xs ++ ys) =
      ((processBatch xs).1 ++ (processBatch ys).1,
       (processBatch xs).2.1 ++ (processBatch ys).2.1,
       (processBatch xs).2.2 ++ (processBatch ys).2.2) := by
  induction xs with
  | nil => simp [processBatch]
  | cons m ms ih => simp [processBatch, ih]

theorem processBatch_drop_middle {m : RawMsg} (pre post : List RawMsg)
    (h : msgContrib m = ([], [], [])) :
    processBatch (pre ++ m :: post) = processBatch (pre ++ post) := by
  rw [processBatch_append, processBatch_append]
  have hm : processBatch (m :: post) = processBatch post := by
    simp [processBatch, h]
  rw [hm]

theorem processBatch_slots_mem (msgs : List RawMsg) :
    ∀ x ∈ (processBatch msgs).1, ∃ m ∈ msgs, ∃ d t1 t2,
      searchTimeSlot (bodyOf m) = some (d, t1, t2) ∧ x = slotKey d t1 t2 := by
  induction msgs with
  | nil => simp [processBatch]
  | cons m ms ih =>
    intro x hx
    simp only [processBatch] at hx
    rcases List.mem_append.mp hx with hx1 | hx2
    · refine ⟨m, List.mem_cons_self m ms, ?_⟩
      simp only [msgContrib] at hx1
      split at hx1
      · cases hts : searchTimeSlot (bodyOf m) with
        | none => rw [hts] at hx1; simp at hx1
        | some v =>
          obtain ⟨d, t1, t2⟩ := v
          rw [hts] at hx1
          simp at hx1
          exact ⟨d, t1, t2, rfl, hx1⟩
      · simp at hx1
    · obtain ⟨m2, hm2, rest⟩ := ih x hx2
      exact ⟨m2, List.mem_cons_of_mem m hm2, rest⟩

theorem hasSub_false_of_not_occurs {n h : Txt} (hn : ¬ occursSub n h) :
    hasSub n h = false := by
  cases hb : hasSub n h with
  | true => exact absurd ((hasSub_iff n h).mp hb) hn
  | false => rfl

-- -----------------------------
-- Distribution helper lemmas
-- -----------------------------

theorem classDist_keys (classes : List String) :
    (classDist classes).map Prod.fst = VALID_CLASSES := by
  rw [classDist, List.map_map]
  have hid : (Prod.fst ∘ fun cls => (cls, cGet (counterL classes) cls)) = id := rfl
  rw [hid, List.map_id]

theorem dayDist_keys (days : List Txt) :
    (dayDist days).map Prod.fst = WEEKDAY_ORDER := by
  rw [dayDist, List.map_map]
  have hid : (Prod.fst ∘ fun day => (day, cGet (counterL days) (strN day))) = id := rfl
  rw [hid, List.map_id]

theorem classDist_counts (classes : List String) :
    ∀ p ∈ classDist classes, p.2 = countK p.1 classes := by
  intro p hp
  simp only [classDist, List.mem_map] at hp
  obtain ⟨cls, _, rfl⟩ := hp
  simp [cGet_counterL]

theorem dayDist_counts (days : List Txt) :
    ∀ p ∈ dayDist days, p.2 = countK (strN p.1) days := by
  intro p hp
  simp only [dayDist, List.mem_map] at hp
  obtain ⟨day, _, rfl⟩ := hp
  simp [cGet_counterL]

-- -----------------------------
-- Cache helper lemmas
-- -----------------------------

theorem is_stale_mono {st : CacheState} {now now2 : Int} (h : is_stale now st = true)
    (hle : now ≤ now2) : is_stale now2 st = true := by
  unfold is_stale at h ⊢
  cases ht : st.cached_time with
  | none => rfl
  | some t =>
    rw [ht] at h
    simp only [decide_eq_true_eq] at h ⊢
    omega

-- -----------------------------
-- UTF-8 skip lemmas for continuation-only byte strings
-- -----------------------------

theorem decode1_skip {b : Nat} (h1 : ¬ b ≤ 127) : decodeUtf8Ignore [b] = [] := by
  simp only [decodeUtf8Ignore]
  rw [if_neg h1]

theorem decode2_skip {b b2 : Nat} (h1 : ¬ b ≤ 127) (h2 : ¬ seq2ok b b2) :
    decodeUtf8Ignore [b, b2] = decodeUtf8Ignore [b2] := by
  simp only [decodeUtf8Ignore]
  rw [if_neg h1, if_neg h2]

theorem decode3_skip {b b2 b3 : Nat} (h1 : ¬ b ≤ 127) (h2 : ¬ seq2ok b b2)
    (h3 : ¬ seq3ok b b2 b3) :
    decodeUtf8Ignore [b, b2, b3] = decodeUtf8Ignore [b2, b3] := by
  simp only [decodeUtf8Ignore]
  rw [if_neg h1, if_neg h2, if_neg h3]

theorem decode4_skip {b b2 b3 b4 : Nat} (rr : List Nat) (h1 : ¬ b ≤ 127)
    (h2 : ¬ seq2ok b b2) (h3 : ¬ seq3ok b b2 b3) (h4 : ¬ seq4ok b b2 b3 b4) :
    decodeUtf8Ignore (b :: b2 :: b3 :: b4 :: rr) =
      decodeUtf8Ignore (b2 :: b3 :: b4 :: rr) := by
  simp only [decodeUtf8Ignore]
  rw [if_neg h1, if_neg h2, if_neg h3, if_neg h4]

theorem cont_only_decode : ∀ bs : List Nat, (∀ b ∈ bs, 128 ≤ b ∧ b ≤ 191) →
    decodeUtf8Ignore bs = [] := by
  intro bs
  induction bs with
  | nil => intro _; rfl
  | cons b rest ih =>
    intro h
    have hb := h b (List.mem_cons_self b rest)
    have hrest : ∀ x ∈ rest, 128 ≤ x ∧ x ≤ 191 :=
      fun x hx => h x (List.mem_cons_of_mem b hx)
    have h127 : ¬ b ≤ 127 := by omega
    have h2 : ∀ b2 : Nat, ¬ seq2ok b b2 := by
      intro b2
      unfold seq2ok contB
      omega
    have h3 : ∀ b2 b3 : Nat, ¬ seq3ok b b2 b3 := by
      intro b2 b3
      unfold seq3ok contB
      omega
    have h4 : ∀ b2 b3 b4 : Nat, ¬ seq4ok b b2 b3 b4 := by
      intro b2 b3 b4
      unfold seq4ok contB
      omega
    rcases rest with _ | ⟨b2, _ | ⟨b3, _ | ⟨b4, rr⟩⟩⟩
    · exact decode1_skip h127
    · rw [decode2_skip h127 (h2 b2)]
      exact ih hrest
    · rw [decode3_skip h127 (h2 b2) (h3 b2 b3)]
      exact ih hrest
    · rw [decode4_skip rr h127 (h2 b2) (h3 b2 b3) (h4 b2 b3 b4)]
      exact ih hrest

-- -----------------------------
-- Claim theorems
-- -----------------------------

/-- C1: a message whose decoded body does not contain the exact
case-sensitive literal substring "A substitute has been requested for"
contributes nothing to the time-slot, class, or day-only data of the batch
(and hence to the three distributions), even when its subject contains a
canonical class name or its body matches the time-slot pattern. -/
theorem C1_no_marker_no_contribution (pre post : List RawMsg) (m : RawMsg)
    (h : ¬ occursSub SUB_MARKER (bodyOf m)) :
    processBatch (pre ++ m :: post) = processBatch (pre ++ post) ∧
    counterL (processBatch (pre ++ m :: post)).1 =
      counterL (processBatch (pre ++ post)).1 ∧
    classDist (processBatch (pre ++ m :: post)).2.1 =
      classDist (processBatch (pre ++ post)).2.1 ∧
    dayDist (processBatch (pre ++ m :: post)).2.2 =
      dayDist (processBatch (pre ++ post)).2.2 := by
  have hmain := processBatch_drop_middle pre post
    (msgContrib_of_no_marker (hasSub_false_of_not_occurs h))
  exact ⟨hmain, by rw [hmain], by rw [hmain], by rw [hmain]⟩

/-- C1 witness: a concrete message whose subject contains "Algebra 1" and
whose body matches the time-slot pattern, but which lacks the marker
phrase, contributes nothing. -/
theorem C1_no_marker_no_contribution_witness :
    (¬ occursSub SUB_MARKER (bodyOf exMsgNoMarker)) ∧
    extract_class_from_subject (subjOf exMsgNoMarker) = some "Algebra 1" ∧
    (searchTimeSlot (bodyOf exMsgNoMarker)).isSome = true ∧
    processBatch ([] ++ exMsgNoMarker :: []) = processBatch ([] ++ []) := by
  have hno : ¬ occursSub SUB_MARKER (bodyOf exMsgNoMarker) := by
    intro hocc
    have hb := (hasSub_iff SUB_MARKER (bodyOf exMsgNoMarker)).mpr hocc
    rw [show hasSub SUB_MARKER (bodyOf exMsgNoMarker) = false from by decide] at hb
    cases hb
  exact ⟨hno, by decide, by decide,
    (C1_no_marker_no_contribution [] [] exMsgNoMarker hno).1⟩

/-- C2: class extraction returns the first entry of the fixed 11-element
catalog (in its fixed scan order) whose name occurs case-insensitively as a
substring of the subject, and none when no catalog name occurs. -/
theorem C2_extract_class_first_match (subject : Txt) :
    VALID_CLASSES = ["Math Level 1", "Math Level 2", "Math Level 3",
      "Math Level 4", "Math Level 5", "Prealgebra", "Algebra 1", "Algebra 2",
      "Geometry", "Precalculus", "Calculus"] ∧
    (extract_class_from_subject subject = none ↔
      ∀ cls ∈ VALID_CLASSES, ¬ occursCI cls subject) ∧
    (∀ c, extract_class_from_subject subject = some c →
      c ∈ VALID_CLASSES ∧ occursCI c subject ∧
      ∃ l1 l2, VALID_CLASSES = l1 ++ c :: l2 ∧ ∀ c2 ∈ l1, ¬ occursCI c2 subject) := by
  have hbridge : ∀ (cls : String),
      occursCI cls subject ↔ hasSub (lowerT (strN cls)) (lowerT subject) = true := by
    intro cls
    exact (hasSub_iff (lowerT (strN cls)) (lowerT subject)).symm
  refine ⟨rfl, ?_, ?_⟩
  · by_cases hemp : subject = []
    · subst hemp
      simp only [extract_class_from_subject, if_pos rfl, true_iff]
      constructor
      · intro _
        intro cls hcls hocc
        obtain ⟨p1, p2, hpp⟩ := hocc
        have hne : ∀ c2 ∈ VALID_CLASSES, (List.map lowerN (strN c2)).length ≠ 0 := by
          decide
        have hlen := congrArg List.length hpp
        simp only [lowerT, List.map_nil, List.length_nil, List.length_append] at hlen
        exact hne cls hcls (by omega)
      · intro _
        rfl
    · rw [extract_class_from_subject, if_neg hemp]
      constructor
      · intro hff cls hcls
        rw [hbridge cls]
        have := List.find?_eq_none.mp hff cls hcls
        simpa using this
      · intro hall
        apply List.find?_eq_none.mpr
        intro cls hcls
        have := hall cls hcls
        rw [hbridge cls] at this
        simpa using this
  · intro c hc
    have hemp : ¬ subject = [] := by
      intro hh
      rw [extract_class_from_subject, if_pos hh] at hc
      cases hc
    rw [extract_class_from_subject, if_neg hemp] at hc
    obtain ⟨hpc, l1, l2, hsplit, hall⟩ := find?_first _ _ _ hc
    refine ⟨by rw [hsplit]; simp, (hbridge c).mpr hpc, l1, l2, hsplit, ?_⟩
    intro c2 hc2
    rw [hbridge c2]
    simp [hall c2 hc2]

/-- C2 witness: a concrete subject containing "Algebra 2". -/
theorem C2_extract_class_first_match_witness :
    extract_class_from_subject (strN "Your Algebra 2 Class") = some "Algebra 2" ∧
    ("Algebra 2" ∈ VALID_CLASSES ∧ occursCI "Algebra 2" (strN "Your Algebra 2 Class") ∧
      ∃ l1 l2, VALID_CLASSES = l1 ++ "Algebra 2" :: l2 ∧
        ∀ c2 ∈ l1, ¬ occursCI c2 (strN "Your Algebra 2 Class")) :=
  ⟨by decide, (C2_extract_class_first_match (strN "Your Algebra 2 Class")).2.2
    "Algebra 2" (by decide)⟩

/-- C3: the time-slot extractor returns none exactly when no occurrence of
the pattern (begins, word day token, space, non-newline filler, " at ",
H:MM or HH:MM, spaces, optional am/pm, " and ends at ", H:MM or HH:MM — all
case-insensitive) exists anywhere in the body; on success it returns the
day token and the two time tokens of the leftmost occurrence verbatim, with
the am/pm markers discarded, the filler being shortest possible at that
position. -/
theorem C3_time_slot_regex (body : Txt) :
    (searchTimeSlot body = none → ∀ i d t1 t2, ¬ occAt (List.drop i body) d t1 t2) ∧
    (∀ d t1 t2, searchTimeSlot body = some (d, t1, t2) →
      ∃ i f, occAtF (List.drop i body) d f t1 t2 ∧
        (∀ j, j < i → ∀ d2 u v, ¬ occAt (List.drop j body) d2 u v) ∧
        (∀ d2 f2 u v, occAtF (List.drop i body) d2 f2 u v →
          d2 = d ∧ f.length ≤ f2.length)) := by
  constructor
  · rintro h i d t1 t2 ⟨f, hocc⟩
    exact matchBegins_complete (search_complete h i) d f t1 t2 hocc
  · intro d t1 t2 h
    obtain ⟨i, hi, hmin⟩ := search_sound h
    obtain ⟨f, hocc, huniq⟩ := matchBegins_sound hi
    refine ⟨i, f, hocc, ?_, huniq⟩
    rintro j hj d2 u v ⟨f2, hocc2⟩
    exact matchBegins_complete (hmin j hj) d2 f2 u v hocc2

/-- C3 witness: a concrete body with an occurrence; the matcher returns its
tokens with the am/pm markers stripped. -/
theorem C3_time_slot_regex_witness :
    searchTimeSlot (strN "x begins Monday morning at 9:00 am and ends at 10:30 pm.") =
      some (strN "Monday", strN "9:00", strN "10:30") ∧
    (∃ i f,
      occAtF (List.drop i (strN "x begins Monday morning at 9:00 am and ends at 10:30 pm."))
        (strN "Monday") f (strN "9:00") (strN "10:30") ∧
      (∀ j, j < i → ∀ d2 u v,
        ¬ occAt (List.drop j (strN "x begins Monday morning at 9:00 am and ends at 10:30 pm."))
          d2 u v) ∧
      (∀ d2 f2 u v,
        occAtF (List.drop i (strN "x begins Monday morning at 9:00 am and ends at 10:30 pm."))
          d2 f2 u v → d2 = strN "Monday" ∧ f.length ≤ f2.length)) :=
  ⟨by decide,
    (C3_time_slot_regex (strN "x begins Monday morning at 9:00 am and ends at 10:30 pm.")).2
      (strN "Monday") (strN "9:00") (strN "10:30") (by decide)⟩

/-- C4: the class distribution has exactly the 11 canonical class names as
keys, in catalog order, and the day-only distribution has exactly the 7
weekday names as keys in Monday..Sunday order; every key is present (count
0 by default) and each count equals the number of occurrences in the input
batch. -/
theorem C4_catalog_distributions (classes : List String) (days : List Txt) :
    (classDist classes).map Prod.fst = VALID_CLASSES ∧
    (∀ p ∈ classDist classes, p.2 = countK p.1 classes) ∧
    (dayDist days).map Prod.fst = WEEKDAY_ORDER ∧
    (∀ p ∈ dayDist days, p.2 = countK (strN p.1) days) :=
  ⟨classDist_keys classes, classDist_counts classes, dayDist_keys days,
    dayDist_counts days⟩

/-- C4 witness: concrete observation lists. -/
theorem C4_catalog_distributions_witness :
    (("Algebra 1", 2) ∈ classDist exClasses) ∧ 2 = countK "Algebra 1" exClasses :=
  ⟨by decide, (C4_catalog_distributions exClasses exDays).2.1 ("Algebra 1", 2) (by decide)⟩

/-- C5: the time-slot distribution's keys are exactly the distinct composite
strings observed (no zero-filled entries, no other keys), each mapped to its
occurrence count, and every observed slot string of a batch is the composite
"{day} {start} - {end}" of a message whose body matched the pattern. -/
theorem C5_time_slot_counter (slots : List Txt) (msgs : List RawMsg) :
    (∀ k, k ∈ (counterL slots).map Prod.fst ↔ k ∈ slots) ∧
    ((counterL slots).map Prod.fst).Nodup ∧
    (∀ p ∈ counterL slots, p.2 = countK p.1 slots ∧ 0 < p.2) ∧
    (∀ x ∈ (processBatch msgs).1, ∃ m ∈ msgs, ∃ d t1 t2,
      searchTimeSlot (bodyOf m) = some (d, t1, t2) ∧ x = slotKey d t1 t2) := by
  refine ⟨fun k => keys_counterL_mem slots k, keys_counterL_nodup slots, ?_,
    processBatch_slots_mem msgs⟩
  rintro ⟨k, n⟩ hp
  have hcount := mem_counterL_count slots k n hp
  have hk : k ∈ slots := (keys_counterL_mem slots k).mp (fst_mem_of_mem hp)
  exact ⟨hcount, hcount ▸ countK_pos_of_mem hk⟩

/-- C5 witness: a concrete slot list with a duplicate. -/
theorem C5_time_slot_counter_witness :
    ((strN "Monday 9:00 - 10:30", 2) ∈ counterL exSlots) ∧
    (2 = countK (strN "Monday 9:00 - 10:30") exSlots ∧ 0 < 2) :=
  ⟨by decide, (C5_time_slot_counter exSlots [exMsgA]).2.2.1
    (strN "Monday 9:00 - 10:30", 2) (by decide)⟩

/-- C6: ensure_cache runs the refresh (consuming the fetch outcome) exactly
when no timestamp exists or the elapsed time strictly exceeds 24 hours;
within 24 hours it returns the stored state unchanged, independently of the
fetch outcome (the mailbox is not consulted). -/
theorem C6_cache_staleness_gate (st : CacheState) (now : Int) :
    (∀ f, (st.cached_time = none ∨
        ∃ t, st.cached_time = some t ∧ now - t > CACHE_INTERVAL) →
      ensure_cache f now st = refresh_cache f now st) ∧
    (∀ f t, st.cached_time = some t → now - t ≤ CACHE_INTERVAL →
      ensure_cache f now st = (st, none)) := by
  constructor
  · rintro f (hnone | ⟨t, ht, hgt⟩)
    · simp [ensure_cache, is_stale, hnone]
    · simp [ensure_cache, is_stale, ht, hgt]
  · intro f t ht hle
    have hnot : ¬ now - t > CACHE_INTERVAL := by omega
    simp [ensure_cache, is_stale, ht, hnot]

/-- C6 witness: at time 100 with a refresh recorded at time 0 the state is
served unchanged. -/
theorem C6_cache_staleness_gate_witness :
    exState.cached_time = some 0 ∧ (100 : Int) - 0 ≤ CACHE_INTERVAL ∧
    ensure_cache exFetch 100 exState = (exState, none) :=
  ⟨rfl, by decide, (C6_cache_staleness_gate exState 100).2 exFetch 0 rfl (by decide)⟩

/-- C7: a failing fetch leaves all four cached values exactly as before,
the error is reported to that caller, and (the timestamp not having been
advanced) any later call still takes the refresh path. -/
theorem C7_failed_refresh_preserves_state (st : CacheState) (now now2 : Int)
    (e : MailboxError) (f2 : Except MailboxError (List RawMsg)) :
    refresh_cache (Except.error e) now st = (st, some e) ∧
    (is_stale now st = true → now ≤ now2 →
      ensure_cache f2 now2 st = refresh_cache f2 now2 st) := by
  constructor
  · rfl
  · intro hstale hle
    simp [ensure_cache, is_stale_mono hstale hle]

/-- C7 witness: concrete failing refresh over the empty initial state. -/
theorem C7_failed_refresh_witness :
    refresh_cache (Except.error 7) 0 initCache = (initCache, some 7) ∧
    ensure_cache exFetch 1 initCache = refresh_cache exFetch 1 initCache := by
  have h := C7_failed_refresh_preserves_state initCache 0 1 7 exFetch
  exact ⟨h.1, h.2 (by decide) (by decide)⟩

/-- C8 counterexample: the decode call uses errors="ignore", which DROPS an
undecodable byte: decoding [65, 255, 66] yields [65, 66] and the output
contains no replacement character U+FFFD (65533), refuting "decoding
substitutes replacement characters". -/
theorem C8_ignore_drops_no_replacement :
    decodeUtf8Ignore [65, 255, 66] = [65, 66] ∧
    ¬ 65533 ∈ decodeUtf8Ignore [65, 255, 66] := by decide

/-- C8 amended: a failure to decode a message body is non-fatal to the
batch — undecodable bytes are dropped (errors ignored) rather than failing
the message, an entirely undecodable message contributes an empty body (and
is then excluded by the genuine-request check), and the remaining messages
of the batch are still processed. -/
theorem C8_decode_failure_nonfatal (pre post : List RawMsg) (subj : Option Txt)
    (junk : List Nat) (hj : ∀ b ∈ junk, 128 ≤ b ∧ b ≤ 191) :
    decodeUtf8Ignore junk = [] ∧
    processBatch (pre ++ { subject := subj, parts := [junk] } :: post) =
      processBatch (pre ++ post) := by
  have hdec : decodeUtf8Ignore junk = [] := cont_only_decode junk hj
  refine ⟨hdec, processBatch_drop_middle pre post ?_⟩
  apply msgContrib_of_no_marker
  have hbody : bodyOf { subject := subj, parts := [junk] } = [] := by
    simp [bodyOf, hdec]
  rw [hbody]
  decide

/-- C8 witness: a concrete undecodable two-byte body. -/
theorem C8_decode_failure_nonfatal_witness :
    (∀ b ∈ [(128 : Nat), 191], 128 ≤ b ∧ b ≤ 191) ∧
    (decodeUtf8Ignore [128, 191] = [] ∧
      processBatch ([] ++ { subject := none, parts := [[128, 191]] } :: []) =
        processBatch ([] ++ [])) :=
  ⟨by decide, C8_decode_failure_nonfatal [] [] none [128, 191] (by decide)⟩

/-- C9: ensure_cache has no mutual exclusion, so two callers that both pass
the staleness check before either refresh writes back each invoke the
mailbox fetch: under the interleaving A-check, B-check, A-refresh,
B-refresh from the empty cache, two fetches occur, contradicting "at most
one refresh in flight / exactly one fetch". -/
theorem C9_duplicate_refresh :
    (runSched 0 [] [Tid.A, Tid.B, Tid.A, Tid.B] initSys).fetchCalls = 2 ∧
    1 < (runSched 0 [] [Tid.A, Tid.B, Tid.A, Tid.B] initSys).fetchCalls := by decide

/-- C10: the day-only distribution's keys are exactly the seven canonical
weekday strings with canonical capitalization; a genuine message whose day
token is "monday" is counted in the time-slot distribution but adds nothing
to any day-only count, so the day-only counts can sum to strictly less than
the number of facts with a present time slot. -/
theorem C10_day_only_canonical_casing :
    (∀ days : List Txt, (dayDist days).map Prod.fst = WEEKDAY_ORDER) ∧
    counterL (processBatch [exMsgLower]).1 = [(strN "monday 9:00 - 10:30", 1)] ∧
    (processBatch [exMsgLower]).2.2 = [strN "monday"] ∧
    sumCounts (dayDist (processBatch [exMsgLower]).2.2) = 0 ∧
    sumCounts (dayDist (processBatch [exMsgLower]).2.2) <
      (processBatch [exMsgLower]).1.length := by
  refine ⟨dayDist_keys, ?_, ?_, ?_, ?_⟩ <;> decide

end SubReq
